import Mathlib

/-!
Verification of the rhdl shift-register cores.

This file gives a shallow embedding of the two synchronous register kernels
of the repository — `shift_out_kernel` in `rhdl-fpga/src/core/shift_out.rs`,
and `shift_register_kernel` together with the duplicated `shift_out_kernel`
in `rhdl-fpga/src/core/shift_reg.rs` — and proves the testable properties of
the specification against them.  Fixed-width values `Bits<N>` are embedded as
a natural-number payload; every operation that can overflow truncates to the
low `N` bits, exactly as the `Bits` arithmetic of rhdl does.  The clocked
simulation harness (`with_reset` / `clock_pos_edge` / `run`) lives in the
rhdl simulation crate rather than in the four source files, so it is
modelled from the specification, as marked on its definitions.
-/

set_option autoImplicit false

/-- The rhdl `Bits<N>` fixed-width unsigned value: a `u128` payload read
modulo `2 ^ N`.  The payload is kept unconstrained here; the reachable-state
invariant `val < 2 ^ N` is proved, not assumed. -/
structure Bits (N : Nat) where
  val : Nat
deriving DecidableEq

/-- The `bits` constructor of rhdl: builds a `Bits<N>` value holding the low
`N` bits of the given integer. -/
def bits (N : Nat) (x : Nat) : Bits N :=
  ⟨x % 2 ^ N⟩

/-- The `Bits::default()` value (all zeros), used by `DFF::new(Bits::default())`
in `ShiftOut::default` and `ShiftRegister::default`. -/
def Bits.default (N : Nat) : Bits N :=
  ⟨0⟩

/-- Shift left (`<<`) on `Bits<N>`: the result keeps only the low `N` bits. -/
def Bits.shl {N : Nat} (a : Bits N) (k : Nat) : Bits N :=
  ⟨(a.val <<< k) % 2 ^ N⟩

/-- Logical shift right (`>>`) on `Bits<N>`. -/
def Bits.shr {N : Nat} (a : Bits N) (k : Nat) : Bits N :=
  ⟨a.val >>> k⟩

/-- Bitwise or (`|`) on `Bits<N>`. -/
def Bits.lor {N : Nat} (a : Bits N) (b : Bits N) : Bits N :=
  ⟨a.val ||| b.val⟩

instance (N : Nat) : BEq (Bits N) where
  beq a b := a.val == b.val

/-- Boolean equality on `Bits` compares the payloads, as the derived
`PartialEq` of rhdl does. -/
theorem Bits.beq_val {N : Nat} (a b : Bits N) : (a == b) = (a.val == b.val) :=
  rfl

/-- One-bit reset signal; `any` is true exactly when the signal is asserted. -/
structure Reset where
  val : Bool
deriving DecidableEq

/-- The `Reset::any()` test used by the kernels. -/
def Reset.any (r : Reset) : Bool :=
  r.val

/-- One-bit clock signal (unused by the combinational kernels themselves). -/
structure Clock where
  val : Bool
deriving DecidableEq

/-- The `ClockReset` bundle passed to every synchronous kernel. -/
structure ClockReset where
  clock : Clock
  reset : Reset
deriving DecidableEq

/-- A `ClockReset` at a positive clock edge with reset deasserted. -/
def posEdge : ClockReset :=
  ⟨⟨true⟩, ⟨false⟩⟩

/-- The `Q<N>` feedback struct generated by `SynchronousDQ`: the current
output of the internal DFF. -/
structure Q (N : Nat) where
  register : Bits N
deriving DecidableEq

/-- The `D<N>` struct generated by `SynchronousDQ`: the next input of the
internal DFF. -/
structure D (N : Nat) where
  register : Bits N
deriving DecidableEq

namespace ShiftOutCore

/-- Kernel of `ShiftOut<N>` from `core/shift_out.rs`.  Input is
`(enable, load, data_in)`; output is the serial bit and the next DFF input. -/
def shift_out_kernel (N : Nat) (cr : ClockReset) (input : Bool × Bool × Bits N)
    (q : Q N) : Bool × D N :=
  let (enable, load, data_in) := input
  let current_reg := q.register
  let msb_bit_position := N - 1
  let serial_out := current_reg.shr msb_bit_position != bits N 0
  let next_reg :=
    if cr.reset.any then bits N 0
    else if load then data_in
    else if enable then current_reg.shl 1
    else current_reg
  (serial_out, ⟨next_reg⟩)

/-- One synchronous step of the shift-out register: run the kernel and feed
the `D` struct back into the DFF. -/
def step (N : Nat) (cr : ClockReset) (input : Bool × Bool × Bits N)
    (s : Bits N) : Bool × Bits N :=
  let od := shift_out_kernel N cr input ⟨s⟩
  (od.1, od.2.register)

/-- Final state of the shift-out register after a list of cycles, each cycle
given as its `ClockReset` and its `(enable, load, data_in)` input. -/
def runState (N : Nat) : Bits N → List (ClockReset × (Bool × Bool × Bits N)) → Bits N
  | s, [] => s
  | s, (cr, i) :: rest => runState N (step N cr i s).2 rest

/-- The serial bits sampled over `k` enable-only cycles (enable high, load
low, `data_in` zero, reset deasserted), MSB first. -/
def streamOut (N : Nat) : Bits N → Nat → List Bool
  | _, 0 => []
  | s, k + 1 =>
    let os := step N posEdge (true, false, bits N 0) s
    os.1 :: streamOut N os.2 k

end ShiftOutCore

namespace ShiftRegCore

/-- Kernel of `ShiftRegister<N>` from `core/shift_reg.rs`.  Input is
`(enable, serial_in)`; output is the full current value and the next DFF
input. -/
def shift_register_kernel (N : Nat) (cr : ClockReset) (input : Bool × Bool)
    (q : Q N) : Bits N × D N :=
  let (enable, serial_in) := input
  let current_reg := q.register
  let parallel_out := current_reg
  let next_reg :=
    if cr.reset.any then bits N 0
    else if enable then
      let shifted_left := current_reg.shl 1
      let serial_bit := if serial_in then bits N 1 else bits N 0
      shifted_left.lor serial_bit
    else current_reg
  (parallel_out, ⟨next_reg⟩)

/-- The duplicated shift-out kernel at the bottom of `core/shift_reg.rs`.
It differs from the copy in `core/shift_out.rs` only in how the serial
output is computed: it reads the raw payload directly,
`(current_reg.val >> (N::BITS - 1)) != 0`. -/
def shift_out_kernel (N : Nat) (cr : ClockReset) (input : Bool × Bool × Bits N)
    (q : Q N) : Bool × D N :=
  let (enable, load, data_in) := input
  let current_reg := q.register
  let serial_out := current_reg.val >>> (N - 1) != 0
  let next_reg :=
    if cr.reset.any then bits N 0
    else if load then data_in
    else if enable then current_reg.shl 1
    else current_reg
  (serial_out, ⟨next_reg⟩)

/-- One synchronous step of the shift-in register. -/
def step (N : Nat) (cr : ClockReset) (input : Bool × Bool) (s : Bits N) :
    Bits N × Bits N :=
  let od := shift_register_kernel N cr input ⟨s⟩
  (od.1, od.2.register)

/-- Final state of the shift-in register after a list of cycles. -/
def runState (N : Nat) : Bits N → List (ClockReset × (Bool × Bool)) → Bits N
  | s, [] => s
  | s, (cr, i) :: rest => runState N (step N cr i s).2 rest

/-- Feed a list of serial bits into the shift-in register, one enabled cycle
per bit, reset deasserted. -/
def shiftInAll (N : Nat) : Bits N → List Bool → Bits N
  | s, [] => s
  | s, b :: rest => shiftInAll N (step N posEdge (true, b) s).2 rest

end ShiftRegCore

/-- Modelled from the spec: the cycle list built by `with_reset(hold)` and
the clock generator, which live in the rhdl simulation crate outside the
four source files.  The first `hold` cycles have reset asserted and carry a
neutral input; afterwards reset is deasserted and the caller inputs apply in
order (spec section 4.3). -/
def harnessCycles {I : Type} (neutral : I) (hold : Nat) (inputs : List I) :
    List (Bool × I) :=
  List.replicate hold (true, neutral) ++ inputs.map (fun i => (false, i))

/-- Modelled from the spec: the clocked run loop behind `run` and
`synchronous_sample`, also outside the four source files.  Each cycle
samples the output from the current state and that cycle's input, then
installs the next state; the kernel is evaluated at a positive clock edge
(spec section 4.3, steps (a)-(c)). -/
def runCycles {I O S : Type} (step : ClockReset → I → S → O × S) :
    S → List (Bool × I) → List O
  | _, [] => []
  | s, (r, i) :: rest =>
    let os := step ⟨⟨true⟩, ⟨r⟩⟩ i s
    os.1 :: runCycles step os.2 rest

/-- Modelled from the spec: `run(register, reset_hold, inputs)`, producing
one sampled output per cycle, in cycle order. -/
def harnessRun {I O S : Type} (step : ClockReset → I → S → O × S) (neutral : I)
    (s0 : S) (hold : Nat) (inputs : List I) : List O :=
  runCycles step s0 (harnessCycles neutral hold inputs)

/-- Construction errors of the abstract interface of spec section 6. -/
inductive RegisterError where
  | InvalidWidth
deriving DecidableEq

/-- Modelled from the spec: the construction API `new_register(width)` of
spec section 6.  In the source the width is a compile-time `BitWidth` type
parameter and `ShiftOut::default` / `ShiftRegister::default` build the
register with `DFF::new(Bits::default())`; the runtime width check with its
`InvalidWidth` error exists only in the specification's abstract interface.
On success the initial state is the source's `Bits::default()`, zero. -/
def new_register (width : Nat) : Except RegisterError (Bits width) :=
  if width = 0 then Except.error RegisterError.InvalidWidth
  else Except.ok (Bits.default width)

/-- The serial-output test of the shift-out kernels agrees with
`Nat.testBit` at the MSB position on payloads within range. -/
theorem msb_test_eq_testBit (N x : Nat) (hx : x < 2 ^ N) :
    (x >>> (N - 1) != 0) = Nat.testBit x (N - 1) := by
  rw [Nat.testBit_to_div_mod, Nat.shiftRight_eq_div_pow]
  rcases Nat.eq_zero_or_pos N with h0 | hpos
  · subst h0
    have hx0 : x = 0 := by simpa using hx
    subst hx0
    decide
  · have hxlt : x < 2 ^ (N - 1) * 2 := by
      calc x < 2 ^ N := hx
        _ = 2 ^ (N - 1) * 2 := by
          rw [← pow_succ]
          congr 1
          omega
    have hp : 0 < 2 ^ (N - 1) := pow_pos (by omega) _
    have hxlt2 : x < 2 * 2 ^ (N - 1) := by omega
    have hd : x / 2 ^ (N - 1) < 2 := (Nat.div_lt_iff_lt_mul hp).2 hxlt2
    have hcases : x / 2 ^ (N - 1) = 0 ∨ x / 2 ^ (N - 1) = 1 := by
      revert hd
      generalize x / 2 ^ (N - 1) = e
      omega
    rcases hcases with h | h <;> rw [h] <;> decide

/-- Bitwise or with `1` on an even number is addition of `1`. -/
theorem even_lor_one (x : Nat) (h : x % 2 = 0) : x ||| 1 = x + 1 := by
  obtain ⟨m, rfl⟩ : ∃ m, x = 2 * m := ⟨x / 2, by omega⟩
  have h3 : (2 * m + 1) / 2 = m := by omega
  apply Nat.eq_of_testBit_eq
  intro i
  cases i with
  | zero =>
    have h2 : (2 * m + 1) % 2 = 1 := by omega
    simp [Nat.testBit_lor, Nat.testBit_zero, h2]
  | succ j =>
    rw [Nat.testBit_lor, Nat.testBit_succ, Nat.testBit_succ, Nat.testBit_succ, h3]
    have h4 : 2 * m / 2 = m := by omega
    have h5 : (1 : Nat) / 2 = 0 := by omega
    rw [h4, h5]
    simp [Nat.zero_testBit]

/-- C1: for both registers, whenever reset is asserted, the next state
produced by the transition function is zero, regardless of enable, load,
serial input and parallel data input. -/
theorem reset_forces_zero (N : Nat) (clk : Bool) (input : Bool × Bool × Bits N)
    (input2 : Bool × Bool) (q q2 : Q N) :
    (ShiftOutCore.shift_out_kernel N ⟨⟨clk⟩, ⟨true⟩⟩ input q).2.register.val = 0
      ∧ (ShiftRegCore.shift_register_kernel N ⟨⟨clk⟩, ⟨true⟩⟩ input2 q2).2.register.val = 0 := by
  obtain ⟨e, l, d⟩ := input
  obtain ⟨e2, si⟩ := input2
  constructor <;> simp [ShiftOutCore.shift_out_kernel, ShiftRegCore.shift_register_kernel,
    Reset.any, bits]

/-- C3: for the shift-out register, on any cycle with reset deasserted and
load high, the next state is exactly `data_in`, whatever `enable` is. -/
theorem load_dominates_enable (N : Nat) (clk enable : Bool) (d : Bits N) (q : Q N) :
    (ShiftOutCore.shift_out_kernel N ⟨⟨clk⟩, ⟨false⟩⟩ (enable, true, d) q).2.register = d :=
  rfl

/-- C9: for the shift-out register, on any cycle with reset deasserted and
load low, the entire result — serial output and next state — is independent
of `data_in`. -/
theorem data_in_noninterference (N : Nat) (clk enable : Bool) (d1 d2 : Bits N) (q : Q N) :
    ShiftOutCore.shift_out_kernel N ⟨⟨clk⟩, ⟨false⟩⟩ (enable, false, d1) q
      = ShiftOutCore.shift_out_kernel N ⟨⟨clk⟩, ⟨false⟩⟩ (enable, false, d2) q :=
  rfl

/-- C10: the two textual copies of the shift-out kernel — the one in
`core/shift_out.rs` comparing `current_reg >> (N - 1)` against `bits(0)` and
the one in `core/shift_reg.rs` comparing the raw payload against `0` —
return the same output and next state on every width, clock-reset bundle,
input tuple and state. -/
theorem shift_out_kernels_agree (N : Nat) (cr : ClockReset)
    (input : Bool × Bool × Bits N) (q : Q N) :
    ShiftOutCore.shift_out_kernel N cr input q
      = ShiftRegCore.shift_out_kernel N cr input q := by
  obtain ⟨e, l, d⟩ := input
  simp [ShiftOutCore.shift_out_kernel, ShiftRegCore.shift_out_kernel,
    Bits.shr, bits, bne, Bits.beq_val]

/-- C2: the output of each kernel is a function of the state entering the
cycle alone — the shift-out register emits the most-significant bit of the
pre-update value and the shift-in register emits the full pre-update value —
independently of reset, enable, load and data inputs of the same cycle. -/
theorem outputs_sample_pre_update_state (N : Nat) (cr cr2 : ClockReset)
    (input : Bool × Bool × Bits N) (input2 : Bool × Bool) (q q2 : Q N)
    (hq : q.register.val < 2 ^ N) :
    (ShiftOutCore.shift_out_kernel N cr input q).1 = Nat.testBit q.register.val (N - 1)
      ∧ (ShiftRegCore.shift_register_kernel N cr2 input2 q2).1 = q2.register := by
  obtain ⟨e, l, d⟩ := input
  obtain ⟨e2, si⟩ := input2
  refine ⟨?_, rfl⟩
  have h1 : (ShiftOutCore.shift_out_kernel N cr (e, l, d) q).1
      = (q.register.val >>> (N - 1) != 0) := by
    simp [ShiftOutCore.shift_out_kernel, Bits.shr, bits, bne, Bits.beq_val]
  rw [h1, msb_test_eq_testBit N q.register.val hq]

/-- Witness for the C2 theorem at width 4 and state `0xA`. -/
theorem outputs_sample_pre_update_state_witness :
    ((⟨bits 4 0xA⟩ : Q 4).register.val < 2 ^ 4)
      ∧ ((ShiftOutCore.shift_out_kernel 4 posEdge (true, false, bits 4 0x5) ⟨bits 4 0xA⟩).1
            = Nat.testBit (⟨bits 4 0xA⟩ : Q 4).register.val (4 - 1)
          ∧ (ShiftRegCore.shift_register_kernel 4 posEdge (true, true) ⟨bits 4 0x3⟩).1
            = (⟨bits 4 0x3⟩ : Q 4).register) :=
  ⟨by decide,
    outputs_sample_pre_update_state 4 posEdge posEdge (true, false, bits 4 0x5) (true, true)
      ⟨bits 4 0xA⟩ ⟨bits 4 0x3⟩ (by decide)⟩

/-- C4: for the shift-in register with reset deasserted, an enabled cycle
doubles the value, truncates to the low `N` bits and adds the serial bit in
the least-significant position, while a disabled cycle holds the value. -/
theorem shift_in_step_arith (N : Nat) (clk si : Bool) (q : Q N) (hN : 1 ≤ N) :
    (ShiftRegCore.shift_register_kernel N ⟨⟨clk⟩, ⟨false⟩⟩ (true, si) q).2.register.val
        = q.register.val * 2 % 2 ^ N + (if si then 1 else 0)
      ∧ (ShiftRegCore.shift_register_kernel N ⟨⟨clk⟩, ⟨false⟩⟩ (false, si) q).2.register
          = q.register := by
  refine ⟨?_, rfl⟩
  have hN0 : N ≠ 0 := by omega
  have hone : (1 : Nat) % 2 ^ N = 1 :=
    Nat.mod_eq_of_lt (Nat.one_lt_two_pow_iff.2 hN0)
  have heven : q.register.val * 2 % 2 ^ N % 2 = 0 := by
    have hdvd : 2 ∣ q.register.val * 2 % 2 ^ N :=
      (Nat.dvd_mod_iff (dvd_pow_self 2 hN0)).2 (dvd_mul_left 2 q.register.val)
    omega
  have h1 : (ShiftRegCore.shift_register_kernel N ⟨⟨clk⟩, ⟨false⟩⟩ (true, si) q).2.register.val
      = q.register.val * 2 % 2 ^ N ||| (if si then 1 else 0) := by
    cases si <;>
      simp [ShiftRegCore.shift_register_kernel, Reset.any, Bits.shl, Bits.lor, bits,
        Nat.shiftLeft_eq, hone]
  rw [h1]
  cases si
  · simp
  · simpa using even_lor_one _ heven

/-- Witness for the C4 theorem at width 3 and state `0x5`. -/
theorem shift_in_step_arith_witness :
    1 ≤ 3
      ∧ ((ShiftRegCore.shift_register_kernel 3 ⟨⟨true⟩, ⟨false⟩⟩ (true, true) ⟨bits 3 0x5⟩).2.register.val
            = (⟨bits 3 0x5⟩ : Q 3).register.val * 2 % 2 ^ 3 + (if true then 1 else 0)
          ∧ (ShiftRegCore.shift_register_kernel 3 ⟨⟨true⟩, ⟨false⟩⟩ (false, true) ⟨bits 3 0x5⟩).2.register
            = (⟨bits 3 0x5⟩ : Q 3).register) :=
  ⟨by decide, shift_in_step_arith 3 true true ⟨bits 3 0x5⟩ (by decide)⟩

/-- The input sequence of `examples/shift_out.rs`: load `0xA5`, eight
enable-only shift cycles, one disabled cycle. -/
def exampleA5Inputs : List (Bool × Bool × Bits 8) :=
  (false, true, bits 8 0xA5) :: List.replicate 8 (true, false, bits 8 0x00)
    ++ [(false, false, bits 8 0x00)]

/-- C7: running the 8-bit shift-out register under the clocked harness with
reset held 2 cycles, then loading `0xA5`, then eight enable-only cycles,
the outputs sampled at cycles 3 through 10 are the bits of `0xA5` from MSB
to LSB. -/
theorem example_a5_outputs :
    List.take 8 (List.drop 3
        (harnessRun (ShiftOutCore.step 8) (false, false, bits 8 0x00)
          (Bits.default 8) 2 exampleA5Inputs))
      = [true, false, true, false, false, true, false, true] := by
  decide

/-- One shift-out step keeps the payload below `2 ^ N` when the data input
is within range. -/
theorem ShiftOutCore.step_out_val_lt (N : Nat) (cr : ClockReset) (e l : Bool)
    (d : Bits N) (s : Bits N) (hs : s.val < 2 ^ N) (hd : d.val < 2 ^ N) :
    ((ShiftOutCore.step N cr (e, l, d) s).2).val < 2 ^ N := by
  have hpos : 0 < 2 ^ N := pow_pos (by omega) N
  rcases cr with ⟨⟨c⟩, ⟨r⟩⟩
  cases r <;> cases l <;> cases e <;>
    simp [ShiftOutCore.step, ShiftOutCore.shift_out_kernel, Reset.any,
      Bits.shl, bits] <;>
    first
      | exact hs
      | exact hd
      | exact hpos
      | exact Nat.mod_lt _ hpos

/-- One shift-in step keeps the payload below `2 ^ N`. -/
theorem ShiftRegCore.step_in_val_lt (N : Nat) (cr : ClockReset) (e si : Bool)
    (s : Bits N) (hs : s.val < 2 ^ N) :
    ((ShiftRegCore.step N cr (e, si) s).2).val < 2 ^ N := by
  have hpos : 0 < 2 ^ N := pow_pos (by omega) N
  rcases cr with ⟨⟨c⟩, ⟨r⟩⟩
  cases r <;> cases e <;> cases si <;>
    simp [ShiftRegCore.step, ShiftRegCore.shift_register_kernel, Reset.any,
      Bits.shl, Bits.lor, bits] <;>
    first
      | exact hs
      | exact hpos
      | exact Nat.mod_lt _ hpos
      | exact Nat.bitwise_lt (Nat.mod_lt _ hpos) (Nat.mod_lt _ hpos)

/-- The shift-out run keeps the payload below `2 ^ N` from any in-range
start state, provided every cycle's data input is within range. -/
theorem ShiftOutCore.runState_out_lt (N : Nat)
    (seq : List (ClockReset × (Bool × Bool × Bits N))) :
    ∀ s : Bits N, s.val < 2 ^ N → (∀ p ∈ seq, p.2.2.2.val < 2 ^ N) →
      (ShiftOutCore.runState N s seq).val < 2 ^ N := by
  induction seq with
  | nil =>
    intro s hs _
    simpa [ShiftOutCore.runState] using hs
  | cons hd tl ih =>
    intro s hs hin
    obtain ⟨cr, e, l, d⟩ := hd
    rw [ShiftOutCore.runState]
    apply ih
    · exact ShiftOutCore.step_out_val_lt N cr e l d s hs (hin (cr, e, l, d) (by simp))
    · intro p hp
      exact hin p (List.mem_cons_of_mem _ hp)

/-- The shift-in run keeps the payload below `2 ^ N` from any in-range
start state. -/
theorem ShiftRegCore.runState_in_lt (N : Nat)
    (seq : List (ClockReset × (Bool × Bool))) :
    ∀ s : Bits N, s.val < 2 ^ N →
      (ShiftRegCore.runState N s seq).val < 2 ^ N := by
  induction seq with
  | nil =>
    intro s hs
    simpa [ShiftRegCore.runState] using hs
  | cons hd tl ih =>
    intro s hs
    obtain ⟨cr, e, si⟩ := hd
    rw [ShiftRegCore.runState]
    exact ih _ (ShiftRegCore.step_in_val_lt N cr e si s hs)

/-- C5: starting from the zero initial state, under any sequence of cycles
whose data inputs are in-range `Bits<N>` values, the stored payload of
either register stays strictly below `2 ^ N`. -/
theorem reachable_states_bounded (N : Nat)
    (seqO : List (ClockReset × (Bool × Bool × Bits N)))
    (seqR : List (ClockReset × (Bool × Bool)))
    (hin : ∀ p ∈ seqO, p.2.2.2.val < 2 ^ N) :
    (ShiftOutCore.runState N (Bits.default N) seqO).val < 2 ^ N
      ∧ (ShiftRegCore.runState N (Bits.default N) seqR).val < 2 ^ N := by
  have h0 : (Bits.default N).val < 2 ^ N := pow_pos (by omega) N
  exact ⟨ShiftOutCore.runState_out_lt N seqO _ h0 hin,
    ShiftRegCore.runState_in_lt N seqR _ h0⟩

/-- Witness for the C5 theorem at width 4 with a load, a shift and a reset
cycle. -/
theorem reachable_states_bounded_witness :
    (∀ p ∈ [(posEdge, (false, true, bits 4 0x9)), (posEdge, (true, false, bits 4 0x0)),
        ((⟨⟨true⟩, ⟨true⟩⟩ : ClockReset), (true, false, bits 4 0xF))],
      p.2.2.2.val < 2 ^ 4)
      ∧ ((ShiftOutCore.runState 4 (Bits.default 4)
            [(posEdge, (false, true, bits 4 0x9)), (posEdge, (true, false, bits 4 0x0)),
              ((⟨⟨true⟩, ⟨true⟩⟩ : ClockReset), (true, false, bits 4 0xF))]).val < 2 ^ 4
          ∧ (ShiftRegCore.runState 4 (Bits.default 4)
              [(posEdge, (true, true)), (posEdge, (true, false))]).val < 2 ^ 4) :=
  ⟨by intro p hp; fin_cases hp <;> decide,
    reachable_states_bounded 4
      [(posEdge, (false, true, bits 4 0x9)), (posEdge, (true, false, bits 4 0x0)),
        ((⟨⟨true⟩, ⟨true⟩⟩ : ClockReset), (true, false, bits 4 0xF))]
      [(posEdge, (true, true)), (posEdge, (true, false))]
      (by intro p hp; fin_cases hp <;> decide)⟩

/-- One enable-only shift-out step in payload form: the sampled bit is the
MSB test of the payload and the payload doubles modulo `2 ^ N`. -/
theorem ShiftOutCore.step_out_shift_eq (N x : Nat) :
    ShiftOutCore.step N posEdge (true, false, bits N 0) ⟨x⟩
      = ((x >>> (N - 1) != 0), ⟨x * 2 % 2 ^ N⟩) := by
  simp [ShiftOutCore.step, ShiftOutCore.shift_out_kernel, posEdge, Reset.any,
    Bits.shl, Bits.shr, bits, bne, Bits.beq_val, Nat.shiftLeft_eq]

/-- One enabled shift-in step in payload form: the payload doubles modulo
`2 ^ N` and the serial bit lands in the least-significant position. -/
theorem ShiftRegCore.step_in_shift_eq (N x : Nat) (b : Bool) :
    (ShiftRegCore.step N posEdge (true, b) ⟨x⟩).2
      = ⟨x * 2 % 2 ^ N ||| (if b then 1 % 2 ^ N else 0)⟩ := by
  cases b <;>
    simp [ShiftRegCore.step, ShiftRegCore.shift_register_kernel, posEdge, Reset.any,
      Bits.shl, Bits.lor, bits, Nat.shiftLeft_eq]

/-- Unfolding of one cycle of the output stream in payload form. -/
theorem ShiftOutCore.streamOut_succ (N x k : Nat) :
    ShiftOutCore.streamOut N ⟨x⟩ (k + 1)
      = (x >>> (N - 1) != 0) :: ShiftOutCore.streamOut N ⟨x * 2 % 2 ^ N⟩ k := by
  simp only [ShiftOutCore.streamOut, ShiftOutCore.step_out_shift_eq]

/-- Unfolding of one cycle of the input stream in payload form. -/
theorem ShiftRegCore.shiftInAll_cons (N x : Nat) (b : Bool) (rest : List Bool) :
    ShiftRegCore.shiftInAll N ⟨x⟩ (b :: rest)
      = ShiftRegCore.shiftInAll N ⟨x * 2 % 2 ^ N ||| (if b then 1 % 2 ^ N else 0)⟩ rest := by
  simp only [ShiftRegCore.shiftInAll, ShiftRegCore.step_in_shift_eq]

/-- Round-trip induction: after `N - k` combined cycles the out register
holds the low `k + 1 .. N` bits shifted to the top and the in register holds
the top `N - k` bits of `v`; `k` more cycles finish the reconstruction. -/
theorem roundtrip_aux (N v : Nat) (hv : v < 2 ^ N) :
    ∀ k : Nat, k ≤ N →
      ShiftRegCore.shiftInAll N ⟨v / 2 ^ k⟩
          (ShiftOutCore.streamOut N ⟨v * 2 ^ (N - k) % 2 ^ N⟩ k)
        = ⟨v⟩ := by
  intro k
  induction k with
  | zero =>
    intro _
    simp [ShiftOutCore.streamOut, ShiftRegCore.shiftInAll]
  | succ k ih =>
    intro hk
    have hkN : k ≤ N := by omega
    have hpk : (0 : Nat) < 2 ^ (N - (k + 1)) := pow_pos (by omega) _
    have hexp : N - (k + 1) + 1 = N - k := by omega
    have hsplitN : 2 ^ (k + 1) * 2 ^ (N - (k + 1)) = 2 ^ N := by
      rw [← pow_add]
      congr 1
      omega
    have hsplitN1 : 2 ^ k * 2 ^ (N - (k + 1)) = 2 ^ (N - 1) := by
      rw [← pow_add]
      congr 1
      omega
    have hAmod : v * 2 ^ (N - (k + 1)) % 2 ^ N
        = v % 2 ^ (k + 1) * 2 ^ (N - (k + 1)) := by
      rw [← hsplitN, Nat.mul_mod_mul_right]
    have hshr : (v * 2 ^ (N - (k + 1)) % 2 ^ N) >>> (N - 1) = v / 2 ^ k % 2 := by
      rw [Nat.shiftRight_eq_div_pow, hAmod, ← hsplitN1,
        Nat.mul_div_mul_right _ _ hpk, pow_succ, Nat.mod_mul_right_div_self]
    have hA2 : v * 2 ^ (N - (k + 1)) % 2 ^ N * 2 % 2 ^ N = v * 2 ^ (N - k) % 2 ^ N := by
      rw [Nat.mod_mul_mod, mul_assoc, ← pow_succ, hexp]
    have h2le : (2 : Nat) ≤ 2 ^ (k + 1) := by
      calc (2 : Nat) = 2 ^ 1 := (pow_one 2).symm
        _ ≤ 2 ^ (k + 1) := Nat.pow_le_pow_right (by omega) (by omega)
    have hY2lt : v / 2 ^ (k + 1) * 2 < 2 ^ N :=
      lt_of_le_of_lt
        (le_trans (Nat.mul_le_mul (le_refl _) h2le) (Nat.div_mul_le_self v _)) hv
    have hstep : v / 2 ^ (k + 1) * 2 % 2 ^ N = v / 2 ^ (k + 1) * 2 :=
      Nat.mod_eq_of_lt hY2lt
    have hone : (1 : Nat) % 2 ^ N = 1 := by
      apply Nat.mod_eq_of_lt
      calc (1 : Nat) < 2 := by omega
        _ ≤ 2 ^ N := by
          calc (2 : Nat) = 2 ^ 1 := (pow_one 2).symm
            _ ≤ 2 ^ N := Nat.pow_le_pow_right (by omega) (by omega)
    have hXY : v / 2 ^ k / 2 = v / 2 ^ (k + 1) := by
      rw [Nat.div_div_eq_div_mul, ← pow_succ]
    have hreg : v / 2 ^ (k + 1) * 2 ||| (if (v / 2 ^ k % 2 != 0) then 1 else 0)
        = v / 2 ^ k := by
      rcases Nat.mod_two_eq_zero_or_one (v / 2 ^ k) with h | h
      · rw [h]
        simp
        omega
      · rw [h]
        simp
        rw [even_lor_one _ (by omega)]
        omega
    rw [ShiftOutCore.streamOut_succ, ShiftRegCore.shiftInAll_cons, hshr, hA2, hstep,
      hone, hreg]
    exact ih hkN

/-- C6: loading an in-range value `v` into the shift-out register and
streaming its `N` bits MSB-first into the shift-in register over `N`
enabled cycles reconstructs `v` exactly. -/
theorem roundtrip_reconstructs (N v : Nat) (hv : v < 2 ^ N) :
    ShiftRegCore.shiftInAll N (Bits.default N)
        (ShiftOutCore.streamOut N
          (ShiftOutCore.step N posEdge (false, true, bits N v) (Bits.default N)).2 N)
      = bits N v := by
  have hload : (ShiftOutCore.step N posEdge (false, true, bits N v) (Bits.default N)).2
      = bits N v := rfl
  rw [hload]
  have hmod : v % 2 ^ N = v := Nat.mod_eq_of_lt hv
  have h := roundtrip_aux N v hv N (le_refl N)
  have hdiv : v / 2 ^ N = 0 := Nat.div_eq_of_lt hv
  have hmul : v * 2 ^ (N - N) % 2 ^ N = v := by
    simp [Nat.sub_self, hmod]
  rw [hdiv, hmul] at h
  have hb : bits N v = (⟨v⟩ : Bits N) := by
    simp [bits, hmod]
  rw [hb]
  exact h

/-- Witness for the C6 theorem at width 8 and value `0xA5`. -/
theorem roundtrip_reconstructs_witness :
    0xA5 < 2 ^ 8
      ∧ ShiftRegCore.shiftInAll 8 (Bits.default 8)
          (ShiftOutCore.streamOut 8
            (ShiftOutCore.step 8 posEdge (false, true, bits 8 0xA5) (Bits.default 8)).2 8)
        = bits 8 0xA5 :=
  ⟨by decide, roundtrip_reconstructs 8 0xA5 (by decide)⟩

/-- C8: construction returns a register whose initial state is zero, fails
with `InvalidWidth` exactly when the requested width is zero, and succeeds
for every positive width. -/
theorem new_register_spec (N : Nat) :
    (new_register N = Except.error RegisterError.InvalidWidth ↔ N = 0)
      ∧ new_register (N + 1) = Except.ok (Bits.default (N + 1))
      ∧ (Bits.default (N + 1)).val = 0 := by
  refine ⟨⟨fun h => ?_, fun h => by simp [new_register, h]⟩, by simp [new_register], rfl⟩
  by_contra hne
  simp [new_register, hne] at h
